import Mathlib

set_option maxHeartbeats 1000000

/-! Shallow embedding of the localized-string formatter of `bootstrap.js`
(`getString` and `getString.init`).  Template strings are modelled as
`List Char`; the case-insensitive regular expressions `/%s/gi` and
`RegExp("%" + (index + 1) + "\\$S", "gi")` are modelled by a literal
left-to-right scanner with ASCII case folding, and the replacement-pattern
expansion of JavaScript `String.prototype.replace` (`$$`, `$&`, the
backquote form and `$'`) is modelled by `expandRepl`. -/

/-- ASCII lower-casing; this is the case folding the `i` regexp flag performs
on the ASCII pattern characters that occur in the two patterns used by
`getString` (`%`, `s`, `S`, `$` and decimal digits). -/
def lowerCh (c : Char) : Char :=
  if 65 ≤ c.toNat ∧ c.toNat ≤ 90 then Char.ofNat (c.toNat + 32) else c

/-- Case-insensitive character match of a pattern character against a subject
character. -/
def cmatch (p c : Char) : Bool := decide (lowerCh p = lowerCh c)

/-- Decimal digit character. -/
def digitChar : Nat → Char
  | 0 => '0'
  | 1 => '1'
  | 2 => '2'
  | 3 => '3'
  | 4 => '4'
  | 5 => '5'
  | 6 => '6'
  | 7 => '7'
  | 8 => '8'
  | 9 => '9'
  | _ => '0'

/-- Fuelled decimal rendering of a natural number (the fuel makes the
definition structurally recursive, so that it evaluates by `decide`). -/
def natCharsAux : Nat → Nat → List Char
  | 0, _ => []
  | fuel + 1, n =>
    if n < 10 then [digitChar n] else natCharsAux fuel (n / 10) ++ [digitChar (n % 10)]

/-- Decimal rendering of a natural number, as JavaScript renders a
non-negative integer with `"" + n`. -/
def natChars (n : Nat) : List Char := natCharsAux (n + 1) n

/-- Decimal rendering of an integer, as JavaScript stringifies an integral
number value. -/
def intChars (i : Int) : List Char :=
  if i < 0 then '-' :: natChars i.natAbs else natChars i.toNat

/-- Does the pattern match a prefix of the subject (case-insensitively)? -/
def isMatch : List Char → List Char → Bool
  | [], _ => true
  | _ :: _, [] => false
  | p :: ps, c :: cs => cmatch p c && isMatch ps cs

/-- Expansion of a replacement string at a match site, following the
JavaScript `String.prototype.replace` replacement patterns for a pattern
without capture groups: `$$` is a literal dollar, `$&` the matched text,
`$` followed by a backquote the text before the match, `$'` the text after
the match; any other `$` is literal. -/
def expandRepl (m before after : List Char) : List Char → List Char
  | [] => []
  | c :: rest =>
    if c = '$' then
      match rest with
      | [] => ['$']
      | d :: rest2 =>
        if d = '$' then '$' :: expandRepl m before after rest2
        else if d = '&' then m ++ expandRepl m before after rest2
        else if d = Char.ofNat 96 then before ++ expandRepl m before after rest2
        else if d = Char.ofNat 39 then after ++ expandRepl m before after rest2
        else '$' :: expandRepl m before after (d :: rest2)
    else c :: expandRepl m before after rest

/-- One global (`g` flag) replacement scan.  `before` is the already scanned
prefix of the original subject (needed by the replacement patterns); the
fuel makes the definition structurally recursive and is always at least the
subject length at the call sites, so it never runs out.  The `0 < pat.length`
guard is vacuous for the two non-empty patterns `getString` uses. -/
def replAux (pat repl : List Char) : Nat → List Char → List Char → List Char
  | 0, _, s => s
  | _ + 1, _, [] => []
  | fuel + 1, before, c :: rest =>
    if 0 < pat.length ∧ isMatch pat (c :: rest) = true then
      expandRepl ((c :: rest).take pat.length) before ((c :: rest).drop pat.length) repl ++
        replAux pat repl fuel (before ++ (c :: rest).take pat.length)
          ((c :: rest).drop pat.length)
    else
      c :: replAux pat repl fuel (before ++ [c]) rest

/-- Replacement scan with canonical fuel. -/
def replC (pat repl before s : List Char) : List Char :=
  replAux pat repl s.length before s

/-- JavaScript `str.replace(pattern-with-gi-flags, repl)`. -/
def jsReplace (pat repl s : List Char) : List Char := replC pat repl [] s

/-- The pattern of `/%s/gi` (bootstrap.js line 89). -/
def barePat : List Char := ['%', 's']

/-- The pattern of `RegExp("%" + (index + 1) + "\\$S", "gi")` for a 1-based
index `n` (bootstrap.js line 93). -/
def posPat (n : Nat) : List Char := '%' :: (natChars n ++ ['$', 'S'])

/-- `args[0]` stringified: for an empty array the element access yields
`undefined`, which `replace` stringifies to `"undefined"`. -/
def firstArg : List String → List Char
  | [] => "undefined".data
  | v :: _ => v.data

/-- The `Array.forEach` loop of bootstrap.js lines 92–94: one global
replacement of `%(i+1)$S` per argument, in index order. -/
def posLoop : Nat → List String → List Char → List Char
  | _, [], s => s
  | i, v :: rest, s => posLoop (i + 1) rest (jsReplace (posPat (i + 1)) v.data s)

/-- The two substitution passes of `getString` in source order: first the
bare `%S` pass with `args[0]`, then the positional passes. -/
def substArgs (vs : List String) (s : List Char) : List Char :=
  posLoop 0 vs (jsReplace barePat (firstArg vs) s)

/-- The two substitution passes applied in the opposite order (used to state
that the passes commute). -/
def substArgsRev (vs : List String) (s : List Char) : List Char :=
  jsReplace barePat (firstArg vs) (posLoop 0 vs s)

/-- Split a string at every semicolon. -/
def splitSemis : List Char → List (List Char)
  | [] => [[]]
  | ';' :: rest => [] :: splitSemis rest
  | c :: rest =>
    match splitSemis rest with
    | [] => [[c]]
    | w :: ws => (c :: w) :: ws

/-- Modelled from the spec: the external pluralization module
(`PluralForm.jsm`) is not part of the repository.  Per the spec a plural
rule maps the quantity to a form index and a pluralized template is a
semicolon-delimited list of sub-forms, with fail-fast bounds checking. -/
def pluralSelect (rule : Int → Nat) (q : Int) (s : List Char) : Option (List Char) :=
  (splitSemis s)[rule q]?

/-- Modelled from the spec: the plural rule family with two forms and the
boundary at quantity 1 (form 0 exactly for quantity 1). -/
def twoFormRule : Int → Nat := fun q => if q = 1 then 0 else 1

/-- Modelled from the spec: a small registry of CLDR-style plural-rule
families keyed by the rule-id string stored under the reserved key
`pluralRule`; family "0" has a single form, family "1" is the two-form
family with boundary at quantity 1. -/
def pluralRuleRegistry (ruleId : String) : Int → Nat :=
  if ruleId = "0" then fun _ => 0
  else if ruleId = "1" then twoFormRule
  else fun _ => 0

/-- The dynamically typed `args` parameter of `getString`: absent
(`undefined`/`null`), a string, an integral number, or an array of values
(modelled as already-stringified values). -/
inductive JSArgs where
  | undef
  | str (s : String)
  | num (n : Int)
  | arr (vs : List String)
deriving DecidableEq

/-- The `args != null` test together with the normalization of bootstrap.js
lines 85–86: a string, or anything whose `length` is `undefined` (such as a
number), is wrapped into a one-element array; an array is kept as is — an
empty array has `length` 0 and `0 == null` is false, so it is not wrapped. -/
def toArgList : JSArgs → Option (List String)
  | JSArgs.undef => none
  | JSArgs.str s => some [s]
  | JSArgs.num n => some [String.mk (intChars n)]
  | JSArgs.arr vs => some vs

/-- The error kinds named by the spec. -/
inductive FmtError where
  | MissingKey
  | PluralFormOutOfRange
  | LocaleUnavailable
deriving DecidableEq

/-- The process-wide state set by `getString.init`: the primary bundle, the
fallback bundle, and the selected plural rule.  A bundle lookup that throws
(key missing, or a null bundle when no locale loaded) is modelled as
`none`. -/
structure FormatterState where
  bundle : String → Option String
  fallback : String → Option String
  plural : Int → Nat

/-- The try/catch of bootstrap.js lines 70–76: look the key up in the
primary bundle and fall back to the fallback bundle when that throws. -/
def resolveKey (st : FormatterState) (name : String) : Option String :=
  match st.bundle name with
  | some s => some s
  | none => st.fallback name

/-- `getString(name, args, plural)` (bootstrap.js lines 67–98).  A miss in
both bundles is the `MissingKey` failure; a plural index beyond the
available forms is the `PluralFormOutOfRange` failure (fail-fast policy,
modelled from the spec since the pluralization module is external). -/
def getString (st : FormatterState) (name : String) (args : JSArgs)
    (plural : Option Int) : Except FmtError String :=
  match resolveKey st name with
  | none => Except.error FmtError.MissingKey
  | some str0 =>
    let sel : Option (List Char) :=
      match plural with
      | none => some str0.data
      | some q => pluralSelect st.plural q str0.data
    match sel with
    | none => Except.error FmtError.PluralFormOutOfRange
    | some s1 =>
      match toArgList args with
      | none => Except.ok (String.mk s1)
      | some vs => Except.ok (String.mk (substArgs vs s1))

/-- `getString` with the state threaded through explicitly: the source body
assigns only to the local `str`; the state fields set by `init` are only
read, so the state passes through unchanged. -/
def getStringRun (st : FormatterState) (name : String) (args : JSArgs)
    (plural : Option Int) : FormatterState × Except FmtError String :=
  (st, getString st name args plural)

/-- `getString.init` (bootstrap.js lines 110–146).  The host glue (chrome
registry, properties files) is abstracted into a loader capability; the
primary bundle is the requested locale's table or, failing that, the
alternate locale's table; the fallback bundle is always the `en-US` table.
The plural rule id is then resolved through the ordinary lookup chain; if no
table at all could be loaded that lookup necessarily fails and `init` fails
with `LocaleUnavailable` (the spec's name for this failure); if tables
exist but the reserved key is missing, the key lookup failure escapes
`init` as `MissingKey`. -/
def initFormatter (loader : String → Option (String → Option String))
    (locale : String) (getAlternate : String → String) : Except FmtError FormatterState :=
  let bundleOpt : Option (String → Option String) :=
    match loader locale with
    | some b => some b
    | none => loader (getAlternate locale)
  let fallbackOpt : Option (String → Option String) := loader "en-US"
  let bundle : String → Option String := fun k => bundleOpt.bind fun b => b k
  let fallback : String → Option String := fun k => fallbackOpt.bind fun b => b k
  match bundle "pluralRule" with
  | some rule => Except.ok ⟨bundle, fallback, pluralRuleRegistry rule⟩
  | none =>
    match fallback "pluralRule" with
    | some rule => Except.ok ⟨bundle, fallback, pluralRuleRegistry rule⟩
    | none =>
      match bundleOpt, fallbackOpt with
      | none, none => Except.error FmtError.LocaleUnavailable
      | _, _ => Except.error FmtError.MissingKey

/-! Template descriptions.  A template is rendered from a list of items:
literal segments, the bare two-character placeholder (`%s`/`%S`), and the
positional placeholder (`%N$S`/`%N$s`).  This is the "unambiguous template"
shape: literal segments that contain no `%` and no `$` (not even up to the
case folding), so placeholders and literal text cannot overlap. -/

inductive TItem where
  | lit (s : List Char)
  | bare (upper : Bool)
  | pos (n : Nat) (upper : Bool)
deriving DecidableEq

/-- The final `s`/`S` of a placeholder. -/
def sChar (b : Bool) : Char := if b then 'S' else 's'

/-- Render a template description to the template string. -/
def renderT : List TItem → List Char
  | [] => []
  | TItem.lit s :: ts => s ++ renderT ts
  | TItem.bare b :: ts => '%' :: sChar b :: renderT ts
  | TItem.pos n b :: ts => '%' :: (natChars n ++ '$' :: sChar b :: renderT ts)

/-- A character that is inert for both patterns: it matches neither `%` nor
`$` under the case folding. -/
def okChar (c : Char) : Bool := !cmatch '%' c && !cmatch '$' c

/-- A string of inert characters. -/
def okStr (s : List Char) : Bool := s.all okChar

/-- Well-formed template description: every literal segment is inert. -/
def wfItem : TItem → Bool
  | TItem.lit s => okStr s
  | _ => true

def wfItems (ts : List TItem) : Bool := ts.all wfItem

/-- Argument values that are inert (no `%`, no `$`). -/
def okArgs (vs : List String) : Bool := vs.all fun v => okStr v.data

/-- Effect of the bare `%S` pass on one item. -/
def bareTo (r : List Char) : TItem → TItem
  | TItem.bare _ => TItem.lit r
  | x => x

/-- Effect of the positional pass for 1-based index `k` on one item. -/
def posTo (k : Nat) (r : List Char) : TItem → TItem
  | TItem.pos n b => if n = k then TItem.lit r else TItem.pos n b
  | x => x

/-- Effect of the positional passes for the arguments `vs`, starting at
0-based index `i`, on one item. -/
def posLoopTo (i : Nat) (vs : List String) : TItem → TItem
  | TItem.pos n b =>
    if i + 1 ≤ n then
      match vs[n - i - 1]? with
      | some v => TItem.lit v.data
      | none => TItem.pos n b
    else TItem.pos n b
  | x => x

/-- Effect of the complete substitution (bare pass, then all positional
passes) on one item. -/
def substItem (vs : List String) (x : TItem) : TItem :=
  posLoopTo 0 vs (bareTo (firstArg vs) x)

/-- Force the case flag of every placeholder to lower case. -/
def lowerFlags : TItem → TItem
  | TItem.bare _ => TItem.bare false
  | TItem.pos n _ => TItem.pos n false
  | x => x

/-- Decimal value of a digit string (used only to establish that `natChars`
is injective). -/
def natVal (l : List Char) : Nat := l.foldl (fun a c => 10 * a + (c.toNat - 48)) 0

/-! Concrete tables, loaders and states used by the witnesses. -/

def wTable : String → Option String := fun k =>
  if k = "pluralRule" then some "1"
  else if k = "money" then some "one item;%s items"
  else none

def wLoader : String → Option (String → Option String) := fun l =>
  if l = "de" then some wTable else none

def wAlt : String → String := fun _ => "de"

def stA : FormatterState :=
  ⟨fun k => if k = "k1" then some "v1" else none,
   fun k => if k = "k2" then some "fallback %s tmpl" else none,
   fun _ => 0⟩

def stB : FormatterState :=
  ⟨fun k => if k = "hereHave" then some "Here, have %s and %2$S" else none,
   fun _ => none, fun _ => 0⟩

def stC : FormatterState :=
  ⟨fun k => if k = "money" then some "one item;%s items" else none,
   fun _ => none, twoFormRule⟩

def itemsW5 : List TItem := [TItem.lit "give ".data, TItem.pos 5 false]

def stD : FormatterState :=
  ⟨fun k => if k = "k5" then some (String.mk (renderT itemsW5)) else none,
   fun _ => none, fun _ => 0⟩

def itemsW9 : List TItem := [TItem.bare true, TItem.lit " # ".data, TItem.pos 1 false]

def stE : FormatterState :=
  ⟨fun k => if k = "k9" then some (String.mk (renderT itemsW9)) else none,
   fun _ => none, fun _ => 0⟩

/-! Character-level facts. -/

theorem cmatch_refl (c : Char) : cmatch c c = true := by
  simp [cmatch]

theorem cm_pct_digit : ∀ d < 10, cmatch '%' (digitChar d) = false := by decide

theorem cm_s_digit : ∀ d < 10, cmatch 's' (digitChar d) = false := by decide

theorem cm_digit_s : ∀ d < 10,
    cmatch (digitChar d) 's' = false ∧ cmatch (digitChar d) 'S' = false := by decide

theorem cm_dollar_digit : ∀ d < 10, cmatch '$' (digitChar d) = false := by decide

theorem cm_digit_dollar : ∀ d < 10, cmatch (digitChar d) '$' = false := by decide

theorem cm_digit_digit : ∀ d < 10, ∀ e < 10,
    cmatch (digitChar d) (digitChar e) = decide (d = e) := by decide

theorem dig_toNat : ∀ d < 10, (digitChar d).toNat = 48 + d := by decide

theorem okChar_spec {c : Char} (h : okChar c = true) :
    cmatch '%' c = false ∧ cmatch '$' c = false := by
  simp only [okChar, Bool.and_eq_true, Bool.not_eq_true'] at h
  exact h

theorem okChar_ne_dollar {c : Char} (h : okChar c = true) : c ≠ '$' := by
  intro hc
  subst hc
  have := (okChar_spec h).2
  rw [cmatch_refl] at this
  exact Bool.noConfusion this

theorem okStr_spec {s : List Char} (h : okStr s = true) :
    ∀ c ∈ s, cmatch '%' c = false ∧ cmatch '$' c = false := by
  intro c hc
  exact okChar_spec (by exact List.all_eq_true.mp h c hc)

theorem okStr_ne_dollar {s : List Char} (h : okStr s = true) :
    ∀ c ∈ s, c ≠ '$' := by
  intro c hc
  exact okChar_ne_dollar (List.all_eq_true.mp h c hc)

/-! Facts about the decimal rendering. -/

theorem natCharsAux_congr :
    ∀ f1 f2 n : Nat, n < f1 → n < f2 → natCharsAux f1 n = natCharsAux f2 n := by
  intro f1
  induction f1 with
  | zero => intro f2 n h1 _; omega
  | succ f ih =>
    intro f2 n h1 h2
    cases f2 with
    | zero => omega
    | succ g =>
      simp only [natCharsAux]
      by_cases h : n < 10
      · simp [h]
      · have hd : n / 10 < n := Nat.div_lt_self (by omega) (by omega)
        simp only [if_neg h]
        rw [ih g (n / 10) (by omega) (by omega)]

theorem natChars_eq (n : Nat) :
    natChars n = if n < 10 then [digitChar n]
      else natChars (n / 10) ++ [digitChar (n % 10)] := by
  have h0 : natCharsAux (n + 1) n
      = if n < 10 then [digitChar n] else natCharsAux n (n / 10) ++ [digitChar (n % 10)] := rfl
  rw [show natChars n = natCharsAux (n + 1) n from rfl, h0]
  by_cases h : n < 10
  · simp [h]
  · have hd : n / 10 < n := Nat.div_lt_self (by omega) (by omega)
    simp only [if_neg h]
    rw [natCharsAux_congr n (n / 10 + 1) (n / 10) (by omega) (by omega)]
    rfl

theorem natChars_ne_nil (n : Nat) : natChars n ≠ [] := by
  rw [natChars_eq]
  by_cases h : n < 10 <;> simp [h]

theorem natChars_digits (n : Nat) : ∀ c ∈ natChars n, ∃ d, d < 10 ∧ c = digitChar d := by
  induction n using Nat.strong_induction_on with
  | _ n ih =>
    rw [natChars_eq]
    by_cases h : n < 10
    · simp only [if_pos h, List.mem_singleton]
      intro c hc
      exact ⟨n, h, hc⟩
    · simp only [if_neg h, List.mem_append, List.mem_singleton]
      intro c hc
      rcases hc with hc | hc
      · exact ih (n / 10) (Nat.div_lt_self (by omega) (by omega)) c hc
      · exact ⟨n % 10, Nat.mod_lt _ (by omega), hc⟩

theorem natVal_natChars (n : Nat) : natVal (natChars n) = n := by
  induction n using Nat.strong_induction_on with
  | _ n ih =>
    rw [natChars_eq]
    by_cases h : n < 10
    · simp only [if_pos h, natVal, List.foldl_cons, List.foldl_nil]
      rw [dig_toNat n h]
      omega
    · simp only [if_neg h, natVal, List.foldl_append, List.foldl_cons, List.foldl_nil]
      have h1 := ih (n / 10) (Nat.div_lt_self (by omega) (by omega))
      rw [show (natChars (n / 10)).foldl (fun a c => 10 * a + (c.toNat - 48)) 0
            = natVal (natChars (n / 10)) from rfl, h1]
      rw [dig_toNat (n % 10) (Nat.mod_lt _ (by omega))]
      omega

theorem natChars_inj {a b : Nat} (h : a ≠ b) : natChars a ≠ natChars b := by
  intro he
  exact h (by rw [← natVal_natChars a, ← natVal_natChars b, he])

/-! Facts about matching and the replacement scan. -/

theorem isMatch_self_append : ∀ (d p s : List Char), isMatch (d ++ p) (d ++ s) = isMatch p s := by
  intro d
  induction d with
  | nil => intro p s; rfl
  | cons c t ih =>
    intro p s
    simp only [List.cons_append, isMatch, cmatch_refl, Bool.true_and]
    exact ih p s

theorem expandRepl_cons_ne (m before after : List Char) {c : Char} (rest : List Char)
    (hc : c ≠ '$') :
    expandRepl m before after (c :: rest) = c :: expandRepl m before after rest := by
  cases rest with
  | nil => rw [expandRepl.eq_2, if_neg hc]
  | cons d rest2 => rw [expandRepl.eq_3, if_neg hc]

theorem expand_id {repl : List Char} (h : ∀ c ∈ repl, c ≠ '$') (m before after : List Char) :
    expandRepl m before after repl = repl := by
  induction repl with
  | nil => rfl
  | cons c rest ih =>
    have hc : c ≠ '$' := h c (List.mem_cons_self _ _)
    rw [expandRepl_cons_ne m before after rest hc,
      ih (fun x hx => h x (List.mem_cons_of_mem _ hx))]

theorem replAux_fuel (pat repl : List Char) :
    ∀ f1 f2 before s, s.length ≤ f1 → s.length ≤ f2 →
      replAux pat repl f1 before s = replAux pat repl f2 before s := by
  intro f1
  induction f1 with
  | zero =>
    intro f2 before s h1 _
    have hs : s = [] := List.eq_nil_of_length_eq_zero (by omega)
    subst hs
    cases f2 <;> rfl
  | succ f ih =>
    intro f2 before s h1 h2
    cases s with
    | nil => cases f2 <;> rfl
    | cons c rest =>
      cases f2 with
      | zero => simp at h2
      | succ g =>
        simp only [replAux]
        by_cases hm : 0 < pat.length ∧ isMatch pat (c :: rest) = true
        · simp only [if_pos hm]
          congr 1
          apply ih
          · simp only [List.length_drop, List.length_cons]
            simp only [List.length_cons] at h1
            omega
          · simp only [List.length_drop, List.length_cons]
            simp only [List.length_cons] at h2
            omega
        · simp only [if_neg hm]
          congr 1
          apply ih
          · simp only [List.length_cons] at h1; omega
          · simp only [List.length_cons] at h2; omega

theorem replC_nil (pat repl before : List Char) : replC pat repl before [] = [] := rfl

theorem replC_cons_nomatch {pat : List Char} (repl : List Char) {c : Char} {rest : List Char}
    (h : ¬(0 < pat.length ∧ isMatch pat (c :: rest) = true)) (before : List Char) :
    replC pat repl before (c :: rest) = c :: replC pat repl (before ++ [c]) rest := by
  show replAux pat repl (rest.length + 1) before (c :: rest) = _
  simp only [replAux, if_neg h]
  rfl

theorem replC_cons_match {pat : List Char} (repl : List Char) {c : Char} {rest : List Char}
    (h1 : 0 < pat.length) (h2 : isMatch pat (c :: rest) = true) (before : List Char) :
    replC pat repl before (c :: rest) =
      expandRepl ((c :: rest).take pat.length) before ((c :: rest).drop pat.length) repl ++
        replC pat repl (before ++ (c :: rest).take pat.length) ((c :: rest).drop pat.length) := by
  show replAux pat repl (rest.length + 1) before (c :: rest) = _
  simp only [replAux, if_pos (And.intro h1 h2)]
  congr 1
  apply replAux_fuel
  · simp only [List.length_drop, List.length_cons]; omega
  · exact Nat.le_refl _

theorem replC_skip (pt repl : List Char) :
    ∀ (a : List Char), (∀ c ∈ a, cmatch '%' c = false) →
    ∀ before t, replC ('%' :: pt) repl before (a ++ t)
      = a ++ replC ('%' :: pt) repl (before ++ a) t := by
  intro a
  induction a with
  | nil => intro _ before t; simp
  | cons c a2 ih =>
    intro h before t
    have hc : cmatch '%' c = false := h c (List.mem_cons_self _ _)
    have hnm : ¬(0 < (('%' : Char) :: pt).length ∧
        isMatch ('%' :: pt) (c :: (a2 ++ t)) = true) := by
      intro hx
      have h2 := hx.2
      simp [isMatch, hc] at h2
    rw [List.cons_append, replC_cons_nomatch repl hnm before,
      ih (fun x hx => h x (List.mem_cons_of_mem _ hx)) (before ++ [c]) t]
    simp [List.append_assoc]

theorem take_app (m t : List Char) : (m ++ t).take m.length = m := by
  induction m with
  | nil => rfl
  | cons c m2 ih => simp [List.take, ih]

theorem drop_app (m t : List Char) : (m ++ t).drop m.length = t := by
  induction m with
  | nil => rfl
  | cons c m2 ih => simp [List.drop, ih]

theorem replC_hit (pat repl m t before : List Char)
    (hlen : m.length = pat.length) (h0 : 0 < pat.length)
    (hm : isMatch pat (m ++ t) = true) (hr : ∀ c ∈ repl, c ≠ '$') :
    replC pat repl before (m ++ t) = repl ++ replC pat repl (before ++ m) t := by
  cases m with
  | nil => simp at hlen; omega
  | cons c m2 =>
    rw [List.cons_append] at hm ⊢
    rw [replC_cons_match repl h0 hm before]
    have htake : (c :: (m2 ++ t)).take pat.length = c :: m2 := by
      rw [← hlen, ← List.cons_append]
      exact take_app _ _
    have hdrop : (c :: (m2 ++ t)).drop pat.length = t := by
      rw [← hlen, ← List.cons_append]
      exact drop_app _ _
    rw [htake, hdrop, expand_id hr]

/-! The effect of each pass on a rendered template. -/

theorem digits_dollar_nomatch :
    ∀ (d1 : List Char), (∀ c ∈ d1, ∃ d, d < 10 ∧ c = digitChar d) →
    ∀ (d2 : List Char), (∀ c ∈ d2, ∃ d, d < 10 ∧ c = digitChar d) →
    d1 ≠ d2 → ∀ u v, isMatch (d1 ++ '$' :: u) (d2 ++ '$' :: v) = false := by
  intro d1
  induction d1 with
  | nil =>
    intro _ d2 h2 hne u v
    cases d2 with
    | nil => exact absurd rfl hne
    | cons c2 t2 =>
      obtain ⟨e, he, hc⟩ := h2 c2 (List.mem_cons_self _ _)
      subst hc
      simp [isMatch, cm_dollar_digit e he]
  | cons c1 t1 ih =>
    intro h1 d2 h2 hne u v
    cases d2 with
    | nil =>
      obtain ⟨d, hd, hc⟩ := h1 c1 (List.mem_cons_self _ _)
      subst hc
      simp [isMatch, cm_digit_dollar d hd]
    | cons c2 t2 =>
      obtain ⟨d, hd, hc1⟩ := h1 c1 (List.mem_cons_self _ _)
      obtain ⟨e, he, hc2⟩ := h2 c2 (List.mem_cons_self _ _)
      subst hc1
      subst hc2
      by_cases hde : d = e
      · subst hde
        have ht : t1 ≠ t2 := fun h => hne (by rw [h])
        simp [isMatch, ih (fun c hc => h1 c (List.mem_cons_of_mem _ hc)) t2
          (fun c hc => h2 c (List.mem_cons_of_mem _ hc)) ht u v]
      · have hcm : cmatch (digitChar d) (digitChar e) = false := by
          rw [cm_digit_digit d hd e he]
          simp [hde]
        simp [isMatch, hcm]

theorem pass_bare {r : List Char} (hr : okStr r = true) :
    ∀ ts, wfItems ts = true → ∀ before,
      replC barePat r before (renderT ts) = renderT (ts.map (bareTo r)) := by
  intro ts
  induction ts with
  | nil => intro _ before; exact replC_nil _ _ _
  | cons x ts ih =>
    intro hw before
    rw [wfItems, List.all_cons, Bool.and_eq_true] at hw
    have ih2 : ∀ b2, replC ('%' :: ['s']) r b2 (renderT ts) = renderT (ts.map (bareTo r)) :=
      ih hw.2
    cases x with
    | lit s =>
      have hs : ∀ c ∈ s, cmatch '%' c = false := fun c hc => (okStr_spec hw.1 c hc).1
      show replC ('%' :: ['s']) r before (s ++ renderT ts) = s ++ renderT (ts.map (bareTo r))
      rw [replC_skip ['s'] r s hs before (renderT ts), ih2 (before ++ s)]
    | bare b =>
      show replC ('%' :: ['s']) r before (['%', sChar b] ++ renderT ts)
        = r ++ renderT (ts.map (bareTo r))
      have hm : isMatch ('%' :: ['s']) (['%', sChar b] ++ renderT ts) = true := by
        show (cmatch '%' '%' && (cmatch 's' (sChar b) && isMatch [] (renderT ts))) = true
        rw [show isMatch [] (renderT ts) = true from rfl]
        cases b <;> decide
      rw [replC_hit ('%' :: ['s']) r ['%', sChar b] (renderT ts) before rfl (by decide) hm
        (okStr_ne_dollar hr), ih2 (before ++ ['%', sChar b])]
    | pos n b =>
      show replC ('%' :: ['s']) r before ('%' :: (natChars n ++ '$' :: sChar b :: renderT ts))
        = '%' :: (natChars n ++ '$' :: sChar b :: renderT (ts.map (bareTo r)))
      obtain ⟨c0, tl, hct⟩ := List.exists_cons_of_ne_nil (natChars_ne_nil n)
      obtain ⟨d0, hd10, hc0⟩ := natChars_digits n c0 (by rw [hct]; exact List.mem_cons_self _ _)
      have hm0 : isMatch ('%' :: ['s']) ('%' :: (natChars n ++ '$' :: sChar b :: renderT ts))
          = false := by
        rw [hct, hc0]
        simp [isMatch, cm_s_digit d0 hd10]
      have hnm : ¬(0 < (('%' : Char) :: ['s']).length ∧
          isMatch ('%' :: ['s']) ('%' :: (natChars n ++ '$' :: sChar b :: renderT ts)) = true) := by
        intro hx
        rw [hm0] at hx
        exact Bool.noConfusion hx.2
      rw [replC_cons_nomatch r hnm before]
      have hinner : ∀ c ∈ natChars n ++ ['$', sChar b], cmatch '%' c = false := by
        intro c hc
        rcases List.mem_append.mp hc with hc | hc
        · obtain ⟨d, hd, rfl⟩ := natChars_digits n c hc
          exact cm_pct_digit d hd
        · rcases List.mem_cons.mp hc with rfl | hc
          · decide
          · rw [List.mem_singleton.mp hc]
            cases b <;> decide
      rw [show natChars n ++ '$' :: sChar b :: renderT ts
          = (natChars n ++ ['$', sChar b]) ++ renderT ts by simp,
        replC_skip ['s'] r (natChars n ++ ['$', sChar b]) hinner _ _, ih2 _]
      simp

theorem pass_pos (k : Nat) {r : List Char} (hr : okStr r = true) :
    ∀ ts, wfItems ts = true → ∀ before,
      replC (posPat k) r before (renderT ts) = renderT (ts.map (posTo k r)) := by
  intro ts
  induction ts with
  | nil => intro _ before; exact replC_nil _ _ _
  | cons x ts ih =>
    intro hw before
    rw [wfItems, List.all_cons, Bool.and_eq_true] at hw
    have ih2 : ∀ b2, replC ('%' :: (natChars k ++ ['$', 'S'])) r b2 (renderT ts)
        = renderT (ts.map (posTo k r)) := ih hw.2
    cases x with
    | lit s =>
      have hs : ∀ c ∈ s, cmatch '%' c = false := fun c hc => (okStr_spec hw.1 c hc).1
      show replC ('%' :: (natChars k ++ ['$', 'S'])) r before (s ++ renderT ts)
        = s ++ renderT (ts.map (posTo k r))
      rw [replC_skip _ r s hs before (renderT ts), ih2 (before ++ s)]
    | bare b =>
      show replC ('%' :: (natChars k ++ ['$', 'S'])) r before ('%' :: sChar b :: renderT ts)
        = '%' :: sChar b :: renderT (ts.map (posTo k r))
      obtain ⟨c0, tl, hct⟩ := List.exists_cons_of_ne_nil (natChars_ne_nil k)
      obtain ⟨d0, hd10, hc0⟩ := natChars_digits k c0 (by rw [hct]; exact List.mem_cons_self _ _)
      have hds : cmatch (digitChar d0) (sChar b) = false := by
        cases b
        · exact (cm_digit_s d0 hd10).1
        · exact (cm_digit_s d0 hd10).2
      have hm0 : isMatch ('%' :: (natChars k ++ ['$', 'S'])) ('%' :: sChar b :: renderT ts)
          = false := by
        rw [hct, hc0]
        simp [isMatch, hds, List.cons_append]
      have hnm : ¬(0 < (('%' : Char) :: (natChars k ++ ['$', 'S'])).length ∧
          isMatch ('%' :: (natChars k ++ ['$', 'S'])) ('%' :: sChar b :: renderT ts) = true) := by
        intro hx
        rw [hm0] at hx
        exact Bool.noConfusion hx.2
      rw [replC_cons_nomatch r hnm before]
      have hsb : ∀ c ∈ [sChar b], cmatch '%' c = false := by
        intro c hc
        rw [List.mem_singleton.mp hc]
        cases b <;> decide
      rw [show (sChar b) :: renderT ts = [sChar b] ++ renderT ts from rfl,
        replC_skip _ r [sChar b] hsb _ _, ih2 _]
      simp
    | pos n b =>
      by_cases hnk : n = k
      · subst hnk
        show replC ('%' :: (natChars n ++ ['$', 'S'])) r before
            ('%' :: (natChars n ++ '$' :: sChar b :: renderT ts))
          = renderT ((TItem.pos n b :: ts).map (posTo n r))
        have hmap : (TItem.pos n b :: ts).map (posTo n r) = TItem.lit r :: ts.map (posTo n r) := by
          simp [posTo]
        rw [hmap]
        show replC ('%' :: (natChars n ++ ['$', 'S'])) r before
            ('%' :: (natChars n ++ '$' :: sChar b :: renderT ts))
          = r ++ renderT (ts.map (posTo n r))
        rw [show ('%' : Char) :: (natChars n ++ '$' :: sChar b :: renderT ts)
            = ('%' :: (natChars n ++ ['$', sChar b])) ++ renderT ts by simp]
        have hm : isMatch ('%' :: (natChars n ++ ['$', 'S']))
            (('%' :: (natChars n ++ ['$', sChar b])) ++ renderT ts) = true := by
          show (cmatch '%' '%' && isMatch (natChars n ++ ['$', 'S'])
            ((natChars n ++ ['$', sChar b]) ++ renderT ts)) = true
          rw [List.append_assoc, isMatch_self_append]
          show (cmatch '%' '%' && (cmatch '$' '$' && (cmatch 'S' (sChar b)
            && isMatch [] (renderT ts)))) = true
          rw [show isMatch [] (renderT ts) = true from rfl]
          cases b <;> decide
        rw [replC_hit ('%' :: (natChars n ++ ['$', 'S'])) r
          ('%' :: (natChars n ++ ['$', sChar b])) (renderT ts) before (by simp) (by simp) hm
          (okStr_ne_dollar hr), ih2 _]
      · show replC ('%' :: (natChars k ++ ['$', 'S'])) r before
            ('%' :: (natChars n ++ '$' :: sChar b :: renderT ts))
          = renderT ((TItem.pos n b :: ts).map (posTo k r))
        have hmap : (TItem.pos n b :: ts).map (posTo k r)
            = TItem.pos n b :: ts.map (posTo k r) := by
          simp [posTo, hnk]
        rw [hmap]
        show replC ('%' :: (natChars k ++ ['$', 'S'])) r before
            ('%' :: (natChars n ++ '$' :: sChar b :: renderT ts))
          = '%' :: (natChars n ++ '$' :: sChar b :: renderT (ts.map (posTo k r)))
        have h2 := digits_dollar_nomatch (natChars k) (natChars_digits k)
          (natChars n) (natChars_digits n)
          (natChars_inj (fun he => hnk he.symm)) ['S'] (sChar b :: renderT ts)
        have hm0 : isMatch ('%' :: (natChars k ++ ['$', 'S']))
            ('%' :: (natChars n ++ '$' :: sChar b :: renderT ts)) = false := by
          show (cmatch '%' '%' && isMatch (natChars k ++ ['$', 'S'])
            (natChars n ++ '$' :: sChar b :: renderT ts)) = false
          rw [h2]
          simp
        have hnm : ¬(0 < (('%' : Char) :: (natChars k ++ ['$', 'S'])).length ∧
            isMatch ('%' :: (natChars k ++ ['$', 'S']))
              ('%' :: (natChars n ++ '$' :: sChar b :: renderT ts)) = true) := by
          intro hx
          rw [hm0] at hx
          exact Bool.noConfusion hx.2
        rw [replC_cons_nomatch r hnm before]
        have hinner : ∀ c ∈ natChars n ++ ['$', sChar b], cmatch '%' c = false := by
          intro c hc
          rcases List.mem_append.mp hc with hc | hc
          · obtain ⟨d, hd, rfl⟩ := natChars_digits n c hc
            exact cm_pct_digit d hd
          · rcases List.mem_cons.mp hc with rfl | hc
            · decide
            · rw [List.mem_singleton.mp hc]
              cases b <;> decide
        rw [show natChars n ++ '$' :: sChar b :: renderT ts
            = (natChars n ++ ['$', sChar b]) ++ renderT ts by simp,
          replC_skip _ r (natChars n ++ ['$', sChar b]) hinner _ _, ih2 _]
        simp

/-! Preservation of well-formedness by the per-item maps, and the loop of
positional passes. -/

theorem wfItem_bareTo {r : List Char} (hr : okStr r = true) (x : TItem)
    (hx : wfItem x = true) : wfItem (bareTo r x) = true := by
  cases x with
  | lit s => exact hx
  | bare b => exact hr
  | pos n b => exact hx

theorem wfItems_map_bareTo {r : List Char} (hr : okStr r = true) {ts : List TItem}
    (hw : wfItems ts = true) : wfItems (ts.map (bareTo r)) = true := by
  rw [wfItems, List.all_eq_true]
  intro y hy
  obtain ⟨x, hx, rfl⟩ := List.mem_map.mp hy
  exact wfItem_bareTo hr x (List.all_eq_true.mp hw x hx)

theorem wfItem_posTo {r : List Char} (hr : okStr r = true) (k : Nat) (x : TItem)
    (hx : wfItem x = true) : wfItem (posTo k r x) = true := by
  cases x with
  | lit s => exact hx
  | bare b => exact hx
  | pos n b => by_cases h : n = k <;> simp [posTo, h, wfItem, hr]

theorem wfItems_map_posTo {r : List Char} (hr : okStr r = true) (k : Nat) {ts : List TItem}
    (hw : wfItems ts = true) : wfItems (ts.map (posTo k r)) = true := by
  rw [wfItems, List.all_eq_true]
  intro y hy
  obtain ⟨x, hx, rfl⟩ := List.mem_map.mp hy
  exact wfItem_posTo hr k x (List.all_eq_true.mp hw x hx)

theorem wfItem_posLoopTo {vs : List String} (hv : okArgs vs = true) (i : Nat) (x : TItem)
    (hx : wfItem x = true) : wfItem (posLoopTo i vs x) = true := by
  cases x with
  | lit s => exact hx
  | bare b => exact hx
  | pos n b =>
    by_cases h : i + 1 ≤ n
    · rcases hg : vs[n - i - 1]? with _ | v
      · simp [posLoopTo, h, hg, wfItem]
      · have hmem : v ∈ vs := by
          obtain ⟨hlt, he⟩ := List.getElem?_eq_some.mp hg
          rw [← he]
          exact List.getElem_mem hlt
        have : okStr v.data = true := List.all_eq_true.mp hv v hmem
        simp [posLoopTo, h, hg, wfItem, this]
    · simp [posLoopTo, h, wfItem]

theorem wfItems_map_posLoopTo {vs : List String} (hv : okArgs vs = true) (i : Nat)
    {ts : List TItem} (hw : wfItems ts = true) :
    wfItems (ts.map (posLoopTo i vs)) = true := by
  rw [wfItems, List.all_eq_true]
  intro y hy
  obtain ⟨x, hx, rfl⟩ := List.mem_map.mp hy
  exact wfItem_posLoopTo hv i x (List.all_eq_true.mp hw x hx)

theorem posLoopTo_nil (i : Nat) (x : TItem) : posLoopTo i [] x = x := by
  cases x with
  | lit s => rfl
  | bare b => rfl
  | pos n b => simp [posLoopTo]

theorem posLoopTo_step (i : Nat) (v : String) (rest : List String) (x : TItem) :
    posLoopTo (i + 1) rest (posTo (i + 1) v.data x) = posLoopTo i (v :: rest) x := by
  cases x with
  | lit s => rfl
  | bare b => rfl
  | pos n b =>
    by_cases h1 : n = i + 1
    · subst h1
      simp [posTo, posLoopTo, show i + 1 - i - 1 = 0 from by omega]
    · have hposTo : posTo (i + 1) v.data (TItem.pos n b) = TItem.pos n b := by
        simp [posTo, h1]
      rw [hposTo]
      by_cases h2 : i + 1 + 1 ≤ n
      · have e2 : i + 1 ≤ n := by omega
        simp only [posLoopTo, if_pos h2, if_pos e2]
        rw [show n - (i + 1) - 1 = n - i - 2 from by omega,
          show n - i - 1 = (n - i - 2) + 1 from by omega, List.getElem?_cons_succ]
      · have h4 : ¬(i + 1 ≤ n) := by omega
        simp [posLoopTo, h2, h4]

theorem posLoop_render : ∀ (vs : List String) (i : Nat) (ts : List TItem),
    okArgs vs = true → wfItems ts = true →
    posLoop i vs (renderT ts) = renderT (ts.map (posLoopTo i vs)) := by
  intro vs
  induction vs with
  | nil =>
    intro i ts _ _
    show renderT ts = renderT (ts.map (posLoopTo i []))
    rw [List.map_congr_left (fun x _ => posLoopTo_nil i x),
      show (fun x : TItem => x) = id from rfl, List.map_id]
  | cons v rest ih =>
    intro i ts hv hw
    rw [okArgs, List.all_cons, Bool.and_eq_true] at hv
    show posLoop (i + 1) rest (jsReplace (posPat (i + 1)) v.data (renderT ts)) = _
    rw [show jsReplace (posPat (i + 1)) v.data (renderT ts)
        = replC (posPat (i + 1)) v.data [] (renderT ts) from rfl,
      pass_pos (i + 1) hv.1 ts hw [],
      ih (i + 1) (ts.map (posTo (i + 1) v.data)) hv.2 (wfItems_map_posTo hv.1 _ hw),
      List.map_map]
    exact congrArg renderT (List.map_congr_left (fun x _ => posLoopTo_step i v rest x))

theorem okStr_firstArg {vs : List String} (hv : okArgs vs = true) :
    okStr (firstArg vs) = true := by
  cases vs with
  | nil => decide
  | cons v rest =>
    rw [okArgs, List.all_cons, Bool.and_eq_true] at hv
    exact hv.1

theorem substArgs_render (vs : List String) (ts : List TItem)
    (hv : okArgs vs = true) (hw : wfItems ts = true) :
    substArgs vs (renderT ts) = renderT (ts.map (substItem vs)) := by
  have hfa : okStr (firstArg vs) = true := okStr_firstArg hv
  show posLoop 0 vs (jsReplace barePat (firstArg vs) (renderT ts)) = _
  rw [show jsReplace barePat (firstArg vs) (renderT ts)
      = replC barePat (firstArg vs) [] (renderT ts) from rfl,
    pass_bare hfa ts hw [],
    posLoop_render vs 0 _ hv (wfItems_map_bareTo hfa hw), List.map_map]
  rfl

theorem bareTo_posLoopTo_comm (r : List Char) (i : Nat) (vs : List String) (x : TItem) :
    bareTo r (posLoopTo i vs x) = posLoopTo i vs (bareTo r x) := by
  cases x with
  | lit s => rfl
  | bare b => rfl
  | pos n b =>
    by_cases h : i + 1 ≤ n
    · rcases hg : vs[n - i - 1]? with _ | v <;> simp [posLoopTo, bareTo, h, hg]
    · simp [posLoopTo, bareTo, h]

theorem substArgsRev_render (vs : List String) (ts : List TItem)
    (hv : okArgs vs = true) (hw : wfItems ts = true) :
    substArgsRev vs (renderT ts) = renderT (ts.map (substItem vs)) := by
  have hfa : okStr (firstArg vs) = true := okStr_firstArg hv
  show jsReplace barePat (firstArg vs) (posLoop 0 vs (renderT ts)) = _
  rw [posLoop_render vs 0 ts hv hw,
    show jsReplace barePat (firstArg vs) (renderT (ts.map (posLoopTo 0 vs)))
      = replC barePat (firstArg vs) [] (renderT (ts.map (posLoopTo 0 vs))) from rfl,
    pass_bare hfa _ (wfItems_map_posLoopTo hv 0 hw) [], List.map_map]
  exact congrArg renderT
    (List.map_congr_left (fun x _ => bareTo_posLoopTo_comm (firstArg vs) 0 vs x))

/-! The claim theorems. -/

/-- C1: for every key and state, `getString` resolves the key in the primary
table first, falls back to the fallback table only on a primary miss, uses
the primary template when the key is present there, and fails with
`MissingKey` (returning no string, in particular not an empty one) when the
key is absent from both tables. -/
theorem getString_lookup_order (st : FormatterState) (name : String) (args : JSArgs)
    (plural : Option Int) :
    (∀ t, st.bundle name = some t → resolveKey st name = some t) ∧
    (st.bundle name = none → resolveKey st name = st.fallback name) ∧
    (st.bundle name = none → st.fallback name = none →
      getString st name args plural = Except.error FmtError.MissingKey) := by
  refine ⟨?_, ?_, ?_⟩
  · intro t ht
    simp [resolveKey, ht]
  · intro h
    simp [resolveKey, h]
  · intro h1 h2
    simp [getString, resolveKey, h1, h2]

/-- Witness for C1 at a concrete state: primary hit, fallback on primary
miss, and `MissingKey` when absent from both. -/
theorem getString_lookup_order_witness :
    resolveKey stA "k1" = some "v1" ∧
    resolveKey stA "k2" = stA.fallback "k2" ∧
    getString stA "k3" JSArgs.undef none = Except.error FmtError.MissingKey :=
  ⟨(getString_lookup_order stA "k1" JSArgs.undef none).1 "v1" rfl,
   (getString_lookup_order stA "k2" JSArgs.undef none).2.1 rfl,
   (getString_lookup_order stA "k3" JSArgs.undef none).2.2 rfl rfl⟩

/-- C7: a key present only in the fallback table resolves to the fallback
template, and with no args and no quantity the template is returned
unmodified. -/
theorem getString_fallback_passthrough (st : FormatterState) (key t : String)
    (h1 : st.bundle key = none) (h2 : st.fallback key = some t) :
    getString st key JSArgs.undef none = Except.ok t := by
  simp only [getString]
  rw [show resolveKey st key = some t by simp [resolveKey, h1, h2]]
  rfl

/-- Witness for C7: the fallback template, placeholder text included, comes
back untouched. -/
theorem getString_fallback_passthrough_witness :
    getString stA "k2" JSArgs.undef none = Except.ok "fallback %s tmpl" :=
  getString_fallback_passthrough stA "k2" "fallback %s tmpl" rfl rfl

/-- C10: `getString` is read-only in the initialized state (the state passes
through unchanged) and deterministic (equal arguments give equal results). -/
theorem getString_pure (st : FormatterState) (name name2 : String) (args args2 : JSArgs)
    (q q2 : Option Int) :
    (getStringRun st name args q).1 = st ∧
    (name = name2 → args = args2 → q = q2 →
      getString st name args q = getString st name2 args2 q2) := by
  refine ⟨rfl, ?_⟩
  rintro rfl rfl rfl
  rfl

/-- Witness for C10 at a concrete state and call. -/
theorem getString_pure_witness :
    (getStringRun stA "k1" JSArgs.undef none).1 = stA ∧
    getString stA "k1" JSArgs.undef none = getString stA "k1" JSArgs.undef none :=
  ⟨(getString_pure stA "k1" "k1" JSArgs.undef JSArgs.undef none none).1,
   (getString_pure stA "k1" "k1" JSArgs.undef JSArgs.undef none none).2 rfl rfl rfl⟩

/-- C2: with the resolved template `"Here, have %s and %2$S"`, the bare
placeholder binds to argument 0 and the positional placeholder `%2$S` to
argument 1 (its 1-based index), producing `"Here, have <name> and <money>"`
for argument values free of `%` and `$` metacharacters. -/
theorem getString_hereHave (st : FormatterState) (name money : String)
    (hn : okStr name.data = true) (hmo : okStr money.data = true)
    (hk : st.bundle "hereHave" = some "Here, have %s and %2$S") :
    getString st "hereHave" (JSArgs.arr [name, money]) none
      = Except.ok ("Here, have " ++ name ++ " and " ++ money) := by
  have hres : resolveKey st "hereHave" = some "Here, have %s and %2$S" := by
    simp [resolveKey, hk]
  have hv : okArgs [name, money] = true := by
    simp [okArgs, hn, hmo]
  have htm : ("Here, have %s and %2$S" : String).data
      = renderT [TItem.lit "Here, have ".data, TItem.bare false,
          TItem.lit " and ".data, TItem.pos 2 true] := by decide
  have hsub := substArgs_render [name, money]
    [TItem.lit "Here, have ".data, TItem.bare false, TItem.lit " and ".data, TItem.pos 2 true]
    hv (by decide)
  simp only [getString]
  rw [hres]
  show Except.ok (String.mk
      (substArgs [name, money] ("Here, have %s and %2$S" : String).data)) = _
  rw [htm, hsub]
  apply congrArg Except.ok
  apply String.ext
  show "Here, have ".data ++ (name.data ++ (" and ".data ++ (money.data ++ [])))
    = (("Here, have " ++ name ++ " and ") ++ money).data
  show "Here, have ".data ++ (name.data ++ (" and ".data ++ (money.data ++ [])))
    = (("Here, have ".data ++ name.data) ++ " and ".data) ++ money.data
  simp [List.append_assoc]

/-- Witness for C2 at concrete argument values. -/
theorem getString_hereHave_witness :
    getString stB "hereHave" (JSArgs.arr ["Alice", "moneys"]) none
      = Except.ok ("Here, have " ++ "Alice" ++ " and " ++ "moneys") :=
  getString_hereHave stB "Alice" "moneys" (by decide) (by decide) rfl

/-- C3: with the two-form boundary-1 plural rule and the template
`"one item;%s items"`, quantity 5 selects form index 1 and substitution then
yields `"5 items"`, quantity 1 selects form index 0 yielding `"one item"`;
the third conjunct shows the form is selected before substitution:
an argument containing a semicolon is substituted into the already selected
sub-form, not split off into a new form. -/
theorem getString_plural_selection (st : FormatterState) (key : String)
    (h1 : st.bundle key = some "one item;%s items") (h2 : st.plural = twoFormRule) :
    getString st key (JSArgs.num 5) (some 5) = Except.ok "5 items" ∧
    getString st key (JSArgs.num 1) (some 1) = Except.ok "one item" ∧
    getString st key (JSArgs.str "x;y") (some 5) = Except.ok "x;y items" := by
  have hres : resolveKey st key = some "one item;%s items" := by
    simp [resolveKey, h1]
  refine ⟨?_, ?_, ?_⟩ <;> (simp only [getString]; rw [hres, h2]; rfl)

/-- Witness for C3 at a concrete state. -/
theorem getString_plural_selection_witness :
    getString stC "money" (JSArgs.num 5) (some 5) = Except.ok "5 items" ∧
    getString stC "money" (JSArgs.num 1) (some 1) = Except.ok "one item" ∧
    getString stC "money" (JSArgs.str "x;y") (some 5) = Except.ok "x;y items" :=
  getString_plural_selection stC "money" rfl rfl

/-- C4: `init` fails with `LocaleUnavailable` exactly when none of the
requested locale, the alternate locale and the fixed reference locale
`en-US` can be loaded; with an unresolvable primary but a resolvable
alternate it succeeds and installs the alternate table as the primary
table. -/
theorem init_locale_resolution (loader : String → Option (String → Option String))
    (locale : String) (ga : String → String) :
    (initFormatter loader locale ga = Except.error FmtError.LocaleUnavailable ↔
      loader locale = none ∧ loader (ga locale) = none ∧ loader "en-US" = none) ∧
    (∀ b r, loader locale = none → loader (ga locale) = some b →
      b "pluralRule" = some r →
      initFormatter loader locale ga = Except.ok
        ⟨fun k => b k, fun k => (loader "en-US").bind fun f => f k,
          pluralRuleRegistry r⟩) := by
  constructor
  · constructor
    · intro h
      rcases hA : loader locale with _ | b1
      · rcases hB : loader (ga locale) with _ | b2
        · rcases hC : loader "en-US" with _ | b3
          · exact ⟨rfl, rfl, rfl⟩
          · rcases hP : b3 "pluralRule" with _ | r <;>
              simp [initFormatter, hA, hB, hC, hP] at h
        · rcases hP : b2 "pluralRule" with _ | r
          · rcases hC : loader "en-US" with _ | b3
            · simp [initFormatter, hA, hB, hP, hC] at h
            · rcases hQ : b3 "pluralRule" with _ | r2 <;>
                simp [initFormatter, hA, hB, hP, hC, hQ] at h
          · simp [initFormatter, hA, hB, hP] at h
      · rcases hP : b1 "pluralRule" with _ | r
        · rcases hC : loader "en-US" with _ | b3
          · simp [initFormatter, hA, hP, hC] at h
          · rcases hQ : b3 "pluralRule" with _ | r2 <;>
              simp [initFormatter, hA, hP, hC, hQ] at h
        · simp [initFormatter, hA, hP] at h
    · rintro ⟨ha, hb, hc⟩
      simp [initFormatter, ha, hb, hc]
  · intro b r ha hb hr
    simp [initFormatter, ha, hb, hr]

/-- Witness for C4: the primary locale "xx" is unresolvable, the alternate
"de" resolves, and the alternate table becomes the primary table. -/
theorem init_locale_resolution_witness :
    initFormatter wLoader "xx" wAlt = Except.ok
      ⟨fun k => wTable k, fun k => (wLoader "en-US").bind fun f => f k,
        pluralRuleRegistry "1"⟩ :=
  (init_locale_resolution wLoader "xx" wAlt).2 wTable "1" rfl rfl rfl

/-- C5: substitution is best effort.  For a well-formed template, `getString`
returns successfully with the per-placeholder substitution applied, a
positional placeholder whose 1-based index exceeds the argument count is
left as itself (hence its text appears literally un-substituted in the
result), and no argument list ever causes an error: the only errors
`getString` can produce are `MissingKey` and `PluralFormOutOfRange`. -/
theorem getString_best_effort (st : FormatterState) (name : String) (vs : List String)
    (items : List TItem) (hv : okArgs vs = true) (hw : wfItems items = true)
    (hres : resolveKey st name = some (String.mk (renderT items))) :
    getString st name (JSArgs.arr vs) none
      = Except.ok (String.mk (renderT (items.map (substItem vs)))) ∧
    (∀ n b, vs.length < n → substItem vs (TItem.pos n b) = TItem.pos n b) ∧
    (∀ args q e, getString st name args q = Except.error e →
      e = FmtError.MissingKey ∨ e = FmtError.PluralFormOutOfRange) := by
  refine ⟨?_, ?_, ?_⟩
  · simp only [getString]
    rw [hres]
    show Except.ok (String.mk (substArgs vs (renderT items))) = _
    rw [substArgs_render vs items hv hw]
  · intro n b hn
    have h1 : 0 + 1 ≤ n := by omega
    have hg : vs[n - 1]? = none := List.getElem?_eq_none (by omega)
    show posLoopTo 0 vs (TItem.pos n b) = TItem.pos n b
    simp [posLoopTo, h1, hg]
  · intro args q e he
    rcases q with _ | qq
    · rcases hargs : toArgList args with _ | vs2 <;>
        simp [getString, hres, hargs] at he
    · rcases hsel : pluralSelect st.plural qq (String.mk (renderT items)).data with _ | s1
      · simp [getString, hres, hsel] at he
        exact Or.inr he.symm
      · rcases hargs : toArgList args with _ | vs2 <;>
          simp [getString, hres, hsel, hargs] at he

/-- Witness for C5: the template `"give %5$S"` with two arguments keeps its
out-of-range placeholder intact and the call succeeds. -/
theorem getString_best_effort_witness :
    getString stD "k5" (JSArgs.arr ["a", "b"]) none
      = Except.ok (String.mk (renderT itemsW5)) :=
  (getString_best_effort stD "k5" ["a", "b"] itemsW5 (by decide) (by decide) rfl).1

/-- C6: both passes are global all-occurrences replacements — on an
unambiguous template the substituted string is the rendering with every
placeholder occurrence replaced per item — and the two passes commute:
applying the positional passes before the bare pass yields the same final
string. -/
theorem subst_passes_commute (vs : List String) (items : List TItem)
    (hv : okArgs vs = true) (hw : wfItems items = true) :
    substArgs vs (renderT items) = substArgsRev vs (renderT items) ∧
    substArgs vs (renderT items) = renderT (items.map (substItem vs)) := by
  have h1 := substArgs_render vs items hv hw
  have h2 := substArgsRev_render vs items hv hw
  exact ⟨by rw [h1, h2], h1⟩

/-- Witness for C6 on a template with repeated placeholders of both kinds. -/
theorem subst_passes_commute_witness :
    substArgs ["A", "B"]
        (renderT [TItem.bare false, TItem.lit " x ".data, TItem.bare true,
          TItem.pos 2 true, TItem.pos 1 false])
      = substArgsRev ["A", "B"]
        (renderT [TItem.bare false, TItem.lit " x ".data, TItem.bare true,
          TItem.pos 2 true, TItem.pos 1 false]) ∧
    substArgs ["A", "B"]
        (renderT [TItem.bare false, TItem.lit " x ".data, TItem.bare true,
          TItem.pos 2 true, TItem.pos 1 false])
      = renderT ([TItem.bare false, TItem.lit " x ".data, TItem.bare true,
          TItem.pos 2 true, TItem.pos 1 false].map (substItem ["A", "B"])) :=
  subst_passes_commute ["A", "B"]
    [TItem.bare false, TItem.lit " x ".data, TItem.bare true,
      TItem.pos 2 true, TItem.pos 1 false] (by decide) (by decide)

/-- C8: placeholder recognition is case-insensitive — substituting a
template is unaffected by the case of the trailing `s`/`S` of its bare and
(in-range) positional placeholders. -/
theorem subst_case_insensitive (vs : List String) (items : List TItem)
    (hv : okArgs vs = true) (hw : wfItems items = true)
    (hin : ∀ n b, TItem.pos n b ∈ items → 1 ≤ n ∧ n ≤ vs.length) :
    substArgs vs (renderT items) = substArgs vs (renderT (items.map lowerFlags)) := by
  have hw2 : wfItems (items.map lowerFlags) = true := by
    rw [wfItems, List.all_eq_true]
    intro y hy
    obtain ⟨x, hx, rfl⟩ := List.mem_map.mp hy
    cases x with
    | lit s => exact List.all_eq_true.mp hw _ hx
    | bare b => rfl
    | pos n b => rfl
  rw [substArgs_render vs items hv hw, substArgs_render vs _ hv hw2, List.map_map]
  apply congrArg renderT
  apply List.map_congr_left
  intro x hx
  cases x with
  | lit s => rfl
  | bare b => rfl
  | pos n b =>
    obtain ⟨h1, h2⟩ := hin n b hx
    have h1b : 0 + 1 ≤ n := by omega
    have hlt : n - 1 < vs.length := by omega
    have hg : vs[n - 1]? = some (vs[n - 1]) :=
      List.getElem?_eq_some.mpr ⟨hlt, rfl⟩
    show substItem vs (TItem.pos n b) = substItem vs (lowerFlags (TItem.pos n b))
    show posLoopTo 0 vs (TItem.pos n b) = posLoopTo 0 vs (TItem.pos n false)
    simp [posLoopTo, h1b, hg]

/-- Witness for C8: upper-case `%S` and lower-case `%1$s` are substituted
exactly as their other-case forms. -/
theorem subst_case_insensitive_witness :
    substArgs ["A"] (renderT [TItem.bare true, TItem.lit " x ".data, TItem.pos 1 false])
      = substArgs ["A"]
        (renderT ([TItem.bare true, TItem.lit " x ".data, TItem.pos 1 false].map lowerFlags)) :=
  subst_case_insensitive ["A"] [TItem.bare true, TItem.lit " x ".data, TItem.pos 1 false]
    (by decide) (by decide)
    (by
      intro n b h
      simp at h
      rcases h with ⟨rfl, rfl⟩
      exact ⟨le_refl 1, le_refl 1⟩)

/-- C9: an empty args array is not wrapped into a one-element array; the
bare `%S` placeholder is then replaced by the text `"undefined"` (the
stringification of the missing first element) while positional placeholders
are left untouched. -/
theorem getString_empty_args (st : FormatterState) (name : String) (items : List TItem)
    (hw : wfItems items = true)
    (hres : resolveKey st name = some (String.mk (renderT items))) :
    toArgList (JSArgs.arr []) = some [] ∧
    getString st name (JSArgs.arr []) none
      = Except.ok (String.mk (renderT (items.map (substItem [])))) ∧
    (∀ b, substItem [] (TItem.bare b) = TItem.lit "undefined".data) ∧
    (∀ n b, substItem [] (TItem.pos n b) = TItem.pos n b) := by
  refine ⟨rfl, ?_, ?_, ?_⟩
  · simp only [getString]
    rw [hres]
    show Except.ok (String.mk (substArgs [] (renderT items))) = _
    rw [substArgs_render [] items rfl hw]
  · intro b
    rfl
  · intro n b
    exact posLoopTo_nil 0 (TItem.pos n b)

/-- Witness for C9: `"%S # %1$s"` with an empty args array becomes
`"undefined # %1$s"`. -/
theorem getString_empty_args_witness :
    getString stE "k9" (JSArgs.arr []) none
      = Except.ok (String.mk (renderT (itemsW9.map (substItem [])))) :=
  (getString_empty_args stE "k9" itemsW9 (by decide) rfl).2.1
